import Mathlib

/-!
# Verification of the resource-identifier subsystem of the provider

This file gives a shallow embedding of the repository's core algorithm —
hierarchical resource-identifier parsing and formatting (spec §§3–4, §7–§8)
— together with the surrounding helpers the claims mention:
the storage key-sorting helper, the SQL managed-database custom pager, and
the parse-before-remote-call control flow of the CRUD operations.

Strings are modelled as `List Char` (`Str`); the path separator is `'/'`.
The grammar engine itself is not present in the source tree (only its unit
test `TestMssqlRecoverableDBID` is), so it is modelled from the spec, as
noted on each definition.
-/

/-- A string, modelled as its character list. -/
abbrev Str := List Char

/-- The path separator of canonical identifier strings (spec §6). -/
def sep : Char := '/'

/-- Modelled from the spec: splitting an input string on the path separator
(§4.1 step 1).  `splitSep s` returns the (always non-empty) list of maximal
separator-free pieces of `s`; a leading/trailing/doubled separator yields an
empty piece at the corresponding position. -/
def splitSep : Str → List Str
  | [] => [[]]
  | c :: cs =>
    let rest := splitSep cs
    if c = sep then [] :: rest
    else
      match rest with
      | [] => [[c]]
      | t :: ts => (c :: t) :: ts

/-- Joining tokens with the path separator (inverse of `splitSep`). -/
def joinSep : List Str → Str
  | [] => []
  | [t] => t
  | t :: ts => t ++ sep :: joinSep ts

/-- Modelled from the spec: one element of an identifier grammar (§3): either
a fixed keyword that must match exactly and case-sensitively, or a
user-supplied value captured under a field label. -/
inductive Segment
  | literal (text : Str)
  | value (label : Str)
deriving DecidableEq, Repr

/-- A grammar: the ordered segment sequence of a resource type (§3). -/
abbrev Grammar := List Segment

/-- The name identifying a segment in error messages: a value segment's
label, or a literal segment's keyword text. -/
def segLabel : Segment → Str
  | .literal text => text
  | .value label => label

/-- Modelled from the spec: the reasons a parse can fail (§7): empty input,
missing segment, unexpected trailing segment, empty value segment, literal
mismatch.  Each reason carries the segment label / tokens involved. -/
inductive ParseError
  | emptyInput
  | missingSegment (label : Str)
  | unexpectedTrailingSegment (token : Str)
  | emptyValueSegment (label : Str)
  | literalMismatch (expected : Str) (actual : Str)
deriving DecidableEq, Repr

/-- Modelled from the spec: a parsed identifier (§3): the grammar that
produced it plus the field map, an association list from value-segment label
to captured value, in grammar order. -/
structure Identifier where
  grammar : Grammar
  fields : List (Str × Str)
deriving DecidableEq, Repr

/-- Association-list lookup of a field label (first match wins). -/
def lookupField (label : Str) : List (Str × Str) → Option Str
  | [] => none
  | (l, v) :: rest => if l = label then some v else lookupField label rest

/-- Modelled from the spec: tokenization (§4.1 step 1 read together with
step 4, §7 and §8 scenario 3): the empty input fails immediately; the single
empty token produced by the leading separator of the absolute form is
discarded; every other empty token (doubled or trailing separators) is kept
and rejected later by the lockstep walk, as required by "no trailing slash
... tolerated" and by the empty-value-segment reason of scenario 3. -/
def tokenize (input : Str) : Except ParseError (List Str) :=
  if input = [] then .error .emptyInput
  else
    let raw := splitSep input
    .ok (if raw.head? = some [] then raw.tail else raw)

/-- Modelled from the spec: the lockstep walk of grammar against tokens
(§4.1 steps 2–4): a literal segment must match its token exactly and
case-sensitively; a value segment captures its token verbatim but rejects an
empty one; a grammar longer than the tokens fails with `missingSegment`, a
token list longer than the grammar with `unexpectedTrailingSegment`. -/
def walk : Grammar → List Str → Except ParseError (List (Str × Str))
  | [], [] => .ok []
  | [], t :: _ => .error (.unexpectedTrailingSegment t)
  | seg :: _, [] => .error (.missingSegment (segLabel seg))
  | .literal text :: gs, t :: ts =>
    if t = text then walk gs ts else .error (.literalMismatch text t)
  | .value label :: gs, t :: ts =>
    if t = [] then .error (.emptyValueSegment label)
    else (walk gs ts).map fun fs => (label, t) :: fs

/-- Modelled from the spec: the identifier parser (§4.1):
`parse input grammar` tokenizes and walks, returning the `Identifier` on
success. -/
def parse (input : Str) (grammar : Grammar) : Except ParseError Identifier :=
  match tokenize input with
  | .error e => .error e
  | .ok tokens => (walk grammar tokens).map fun fs => ⟨grammar, fs⟩

/-- Modelled from the spec: the token emitted for each segment by the
formatter (§4.2): a literal emits its keyword, a value segment emits the
field map's entry for its label. -/
def emitTokens (g : Grammar) (fields : List (Str × Str)) : List Str :=
  g.map fun s =>
    match s with
    | .literal text => text
    | .value label => (lookupField label fields).getD []

/-- Modelled from the spec: the identifier formatter (§4.2): emits one token
per grammar segment and joins them with the separator, prefixed by the
separator (absolute path form). -/
def format (id : Identifier) : Str :=
  sep :: joinSep (emitTokens id.grammar id.fields)

/-- The field map induced by an assignment `f` of values to labels: one
entry per value segment of the grammar, in grammar order. -/
def fieldsOf (g : Grammar) (f : Str → Str) : List (Str × Str) :=
  g.filterMap fun s =>
    match s with
    | .literal _ => none
    | .value label => some (label, f label)

/-- Modelled from the spec: the outbound constructor (§3, §4.3): builds an
`Identifier` directly from known field values. -/
def construct (g : Grammar) (f : Str → Str) : Identifier :=
  ⟨g, fieldsOf g f⟩

/-- The token sequence of a fully assigned grammar. -/
def tokensOf (g : Grammar) (f : Str → Str) : List Str :=
  g.map fun s =>
    match s with
    | .literal text => text
    | .value label => f label

deriving instance DecidableEq for Except

/-- The value-segment labels of a grammar, in order. -/
def valueLabels (g : Grammar) : List Str :=
  g.filterMap fun s =>
    match s with
    | .literal _ => none
    | .value label => some label

/-- Modelled from the spec: the grammar of the "recoverable database"
resource type (§8 scenario 1 and the unit test `TestMssqlRecoverableDBID`):
`/subscriptions/{id}/resourceGroups/{rg}/providers/Microsoft.Sql/servers/{server}/recoverabledatabases/{name}`. -/
def mssqlRecoverableDBGrammar : Grammar :=
  [ .literal "subscriptions".data, .value "SubscriptionId".data,
    .literal "resourceGroups".data, .value "ResourceGroup".data,
    .literal "providers".data, .literal "Microsoft.Sql".data,
    .literal "servers".data, .value "MsSqlServer".data,
    .literal "recoverabledatabases".data, .value "Name".data ]

/-- The typed identifier of a recoverable database, as in the unit test:
named struct members instead of the generic field map (§4.3). -/
structure MsSqlRecoverableDBId where
  Name : Str
  MsSqlServer : Str
  ResourceGroup : Str
deriving DecidableEq, Repr

/-- Modelled from the spec: the typed parser of the grammar registry (§4.3):
delegates to the generic parser with the recoverable-database grammar and
exposes the captured fields as named struct members.  Only its unit test is
in the source tree. -/
def MssqlRecoverableDBID (input : Str) : Except ParseError MsSqlRecoverableDBId :=
  match parse input mssqlRecoverableDBGrammar with
  | .error e => .error e
  | .ok id =>
    .ok { Name := (lookupField "Name".data id.fields).getD []
        , MsSqlServer := (lookupField "MsSqlServer".data id.fields).getD []
        , ResourceGroup := (lookupField "ResourceGroup".data id.fields).getD [] }

/-- Toggling the case of one ASCII character: a lower-case letter becomes
upper case, an upper-case letter becomes lower case, anything else is
unchanged.  Used to state the case-sensitivity property (§4.1 step 2). -/
def toggleCase (c : Char) : Char :=
  if 97 ≤ c.toNat ∧ c.toNat ≤ 122 then c.toUpper
  else if 65 ≤ c.toNat ∧ c.toNat ≤ 90 then c.toLower
  else c

/-- The token `t` with the case of its `j`-th character toggled. -/
def alterCaseAt (t : Str) (j : Nat) : Str :=
  t.set j (toggleCase (t.getD j sep))

/-! ### CRUD control flow (eventhub consumer group, CDN endpoint)

The two resource files in the source tree follow the same pattern: each
Read/Update/Delete operation first parses the state-stored identifier and
returns the parse error unchanged when parsing fails, before any remote
call.  The remote API is abstracted as an oracle answering each call; each
embedded operation returns its outcome together with the number of remote
calls it issued. -/

/-- Modelled from the spec: the consumer-group grammar behind
`consumergroups.ParseConsumergroupID` (the typed parser of §4.3 used by
`ConsumerGroupResource`; the parser itself is in a vendored dependency). -/
def consumergroupGrammar : Grammar :=
  [ .literal "subscriptions".data, .value "SubscriptionId".data,
    .literal "resourceGroups".data, .value "ResourceGroup".data,
    .literal "providers".data, .literal "Microsoft.EventHub".data,
    .literal "namespaces".data, .value "NamespaceName".data,
    .literal "eventhubs".data, .value "EventhubName".data,
    .literal "consumergroups".data, .value "Name".data ]

/-- Modelled from the spec: `consumergroups.ParseConsumergroupID` (§4.3):
delegates to the generic parser with the consumer-group grammar. -/
def ParseConsumergroupID (input : Str) : Except ParseError Identifier :=
  parse input consumergroupGrammar

/-- Modelled from the spec: the CDN endpoint grammar behind
`parse.EndpointID` (the typed parser of §4.3 used by the CDN endpoint
resource; the parser itself is not in the source tree). -/
def cdnEndpointGrammar : Grammar :=
  [ .literal "subscriptions".data, .value "SubscriptionId".data,
    .literal "resourceGroups".data, .value "ResourceGroup".data,
    .literal "providers".data, .literal "Microsoft.Cdn".data,
    .literal "profiles".data, .value "ProfileName".data,
    .literal "endpoints".data, .value "Name".data ]

/-- Modelled from the spec: `parse.EndpointID` (§4.3): delegates to the
generic parser with the CDN endpoint grammar. -/
def EndpointID (input : Str) : Except ParseError Identifier :=
  parse input cdnEndpointGrammar

/-- The reply of one remote API call, abstracted to what the CRUD control
flow inspects: success, a not-found response, or any other error. -/
inductive ApiReply
  | ok
  | notFound
  | apiError
deriving DecidableEq, Repr

/-- The outcome of one CRUD operation, as far as the embedded control flow
distinguishes: the parse error returned verbatim, a local decode failure, a
remote failure, the resource marked gone in state, or normal completion. -/
inductive CrudOutcome
  | parseFailed (e : ParseError)
  | decodeFailed
  | apiFailed
  | markedGone
  | done
deriving DecidableEq, Repr

/-- Embedding of `ConsumerGroupResource.Read`
(eventhub_consumer_group_resource.go 147–180): parse the state id (on error
return it, issuing no remote call), then `Get`; a not-found reply marks the
resource gone, any other error is surfaced, otherwise the state is set. -/
def consumerGroupRead (stateId : Str) (get : Identifier → ApiReply) :
    CrudOutcome × Nat :=
  match ParseConsumergroupID stateId with
  | .error e => (.parseFailed e, 0)
  | .ok id =>
    match get id with
    | .notFound => (.markedGone, 1)
    | .apiError => (.apiFailed, 1)
    | .ok => (.done, 1)

/-- Embedding of `ConsumerGroupResource.Update`
(eventhub_consumer_group_resource.go 113–145): parse the state id (on error
return it, issuing no remote call), decode the config state (a local step),
then `CreateOrUpdate`; a not-found reply is not special-cased there. -/
def consumerGroupUpdate (stateId : Str) (decodeOk : Bool)
    (createOrUpdate : Identifier → ApiReply) : CrudOutcome × Nat :=
  match ParseConsumergroupID stateId with
  | .error e => (.parseFailed e, 0)
  | .ok id =>
    if decodeOk then
      match createOrUpdate id with
      | .apiError => (.apiFailed, 1)
      | _ => (.done, 1)
    else (.decodeFailed, 0)

/-- Embedding of `ConsumerGroupResource.Delete`
(eventhub_consumer_group_resource.go 182–203): parse the state id (on error
return it, issuing no remote call), then `Delete`; a not-found reply on
delete is tolerated. -/
def consumerGroupDelete (stateId : Str) (del : Identifier → ApiReply) :
    CrudOutcome × Nat :=
  match ParseConsumergroupID stateId with
  | .error e => (.parseFailed e, 0)
  | .ok id =>
    match del id with
    | .apiError => (.apiFailed, 1)
    | _ => (.done, 1)

/-- Embedding of `resourceCdnEndpointRead` (cdn_endpoint_resource.go
652–729): parse the state id (on error return it, issuing no remote call),
then `Get`; not-found clears the state id, other errors are surfaced,
otherwise the state is set from the response. -/
def cdnEndpointRead (stateId : Str) (get : Identifier → ApiReply) :
    CrudOutcome × Nat :=
  match EndpointID stateId with
  | .error e => (.parseFailed e, 0)
  | .ok id =>
    match get id with
    | .notFound => (.markedGone, 1)
    | .apiError => (.apiFailed, 1)
    | .ok => (.done, 1)

/-- Embedding of `resourceCdnEndpointUpdate` (cdn_endpoint_resource.go
502–651): parse the state id (on error return it, issuing no remote call),
`Get` the existing endpoint, then either skip the update (tags-only change
set with unchanged tags), PATCH (tags-only) or PUT (full update), and
finally re-read. -/
def cdnEndpointUpdate (stateId : Str) (tagsOnly tagsChanged : Bool)
    (getExisting applyUpdate get : Identifier → ApiReply) :
    CrudOutcome × Nat :=
  match EndpointID stateId with
  | .error e => (.parseFailed e, 0)
  | .ok id =>
    match getExisting id with
    | .apiError => (.apiFailed, 1)
    | _ =>
      if tagsOnly && !tagsChanged then
        let r := cdnEndpointRead stateId get
        (r.1, 1 + r.2)
      else
        match applyUpdate id with
        | .apiError => (.apiFailed, 2)
        | _ =>
          let r := cdnEndpointRead stateId get
          (r.1, 2 + r.2)

/-- Embedding of `resourceCdnEndpointDelete` (cdn_endpoint_resource.go
731–752): parse the state id (on error return it, issuing no remote call),
then `Delete` and wait for completion. -/
def cdnEndpointDelete (stateId : Str) (del : Identifier → ApiReply) :
    CrudOutcome × Nat :=
  match EndpointID stateId with
  | .error e => (.parseFailed e, 0)
  | .ok id =>
    match del id with
    | .apiError => (.apiFailed, 1)
    | _ => (.done, 1)

/-! ### Storage helper and managed-database pager -/

/-- The storage-account kind, a named string type
(`storageaccounts.Kind`). -/
structure Kind where
  str : String
deriving DecidableEq, Repr

/-- Embedding of `sortedKeysFromSlice` (storage/helpers.go 15–22): collect
the keys of the input map as plain strings and sort them ascending
(`sort.Strings`).  The Go map is represented by the list of its keys in
whatever iteration order the runtime produces. -/
def sortedKeysFromSlice (input : List Kind) : List String :=
  List.insertionSort (· ≤ ·) (input.map Kind.str)

/-- The custom pager of `ListByInstance`
(method_listbyinstance.go 27–29): holds the next-page link, an optional
URL. -/
structure ListByInstanceCustomPager where
  NextLink : Option String
deriving DecidableEq, Repr

/-- Embedding of `ListByInstanceCustomPager.NextPageLink`
(method_listbyinstance.go 31–37): returns the stored link; the deferred
assignment clears the stored link before the method returns, so the caller
receives the old value and the pager is left holding nil. -/
def NextPageLink (p : ListByInstanceCustomPager) :
    Option String × ListByInstanceCustomPager :=
  (p.NextLink, { NextLink := none })

/-- The result of the `n`-th successive `NextPageLink` call on a pager
(counting from 0), with the pager state threaded through the calls. -/
def nthCallResult (p : ListByInstanceCustomPager) : Nat → Option String
  | 0 => (NextPageLink p).1
  | n + 1 => nthCallResult (NextPageLink p).2 n

/-- The literal keyword texts of a grammar, in order. -/
def literalTexts (g : Grammar) : List Str :=
  g.filterMap fun s =>
    match s with
    | .literal text => some text
    | .value _ => none

/-- A fully populated assignment for the recoverable-database grammar with
the values of §8 scenario 1. -/
def recovAssign : Str → Str := fun l =>
  if l = "Name".data then "sqlDB1".data
  else if l = "MsSqlServer".data then "sqlServer1".data
  else if l = "ResourceGroup".data then "resGroup1".data
  else "00000000-0000-0000-0000-000000000000".data

/-- Like `recovAssign`, but the Name value contains the path separator. -/
def slashNameAssign : Str → Str := fun l =>
  if l = "Name".data then "sql/DB1".data
  else if l = "MsSqlServer".data then "sqlServer1".data
  else if l = "ResourceGroup".data then "resGroup1".data
  else "00000000-0000-0000-0000-000000000000".data

/-- A grammar with a duplicated value label, used to refute the unrestricted
string round-trip claim. -/
def dupLabelGrammar : Grammar :=
  [ .literal "subscriptions".data, .value "a".data,
    .literal "x".data, .value "a".data ]

/-- A one-segment grammar (a lone subscription-scope literal), used to probe
the truncation behaviour at the shortest possible grammar. -/
def singleSegGrammar : Grammar := [Segment.literal "subscriptions".data]

/-! ## Lemmas about splitting and joining on the separator -/

theorem splitSep_ne_nil (s : Str) : splitSep s ≠ [] := by
  induction s with
  | nil => simp [splitSep]
  | cons c cs ih =>
    simp only [splitSep]
    split
    · simp
    · cases h : splitSep cs with
      | nil => simp
      | cons t ts => simp [h]

theorem sep_not_mem_of_mem_splitSep {s : Str} {t : Str}
    (ht : t ∈ splitSep s) : sep ∉ t := by
  induction s generalizing t with
  | nil =>
    simp [splitSep] at ht
    simp [ht]
  | cons c cs ih =>
    simp only [splitSep] at ht
    split at ht
    · rcases List.mem_cons.mp ht with h | h
      · simp [h]
      · exact ih h
    · rename_i hc
      cases h : splitSep cs with
      | nil => exact absurd h (splitSep_ne_nil cs)
      | cons t0 ts =>
        rw [h] at ht
        rcases List.mem_cons.mp ht with h' | h' 
        · subst h'
          intro hmem
          rcases List.mem_cons.mp hmem with h'' | h''
          · exact hc h''.symm
          · exact ih (h ▸ List.mem_cons_self t0 ts) h''
        · exact ih (h ▸ List.mem_cons_of_mem t0 h')

theorem joinSep_splitSep (s : Str) : joinSep (splitSep s) = s := by
  induction s with
  | nil => simp [splitSep, joinSep]
  | cons c cs ih =>
    simp only [splitSep]
    split
    · rename_i hc
      cases h : splitSep cs with
      | nil => exact absurd h (splitSep_ne_nil cs)
      | cons t ts =>
        rw [h] at ih
        subst hc
        cases ts with
        | nil =>
          simp [joinSep] at ih ⊢
          exact ih
        | cons t2 ts2 => simp [joinSep] at ih ⊢; exact ih
    · rename_i hc
      cases h : splitSep cs with
      | nil => exact absurd h (splitSep_ne_nil cs)
      | cons t ts =>
        rw [h] at ih
        cases ts with
        | nil => simp [joinSep] at ih ⊢; simp [ih]
        | cons t2 ts2 =>
          simp [joinSep] at ih ⊢
          simp [ih]

theorem splitSep_of_sep_not_mem {s : Str} (h : sep ∉ s) : splitSep s = [s] := by
  induction s with
  | nil => simp [splitSep]
  | cons c cs ih =>
    simp only [List.mem_cons, not_or] at h
    simp only [splitSep]
    rw [if_neg (fun hc => h.1 hc.symm), ih h.2]

theorem splitSep_append_sep {a b : Str} (h : sep ∉ a) :
    splitSep (a ++ sep :: b) = a :: splitSep b := by
  induction a with
  | nil => simp [splitSep]
  | cons c a' ih =>
    simp only [List.mem_cons, not_or] at h
    simp only [List.cons_append, splitSep]
    rw [if_neg (fun hc => h.1 hc.symm)]
    simp only [List.append_eq]
    rw [ih h.2]

theorem splitSep_joinSep {ts : List Str} (hne : ts ≠ [])
    (hsep : ∀ t ∈ ts, sep ∉ t) : splitSep (joinSep ts) = ts := by
  induction ts with
  | nil => exact absurd rfl hne
  | cons t ts' ih =>
    cases ts' with
    | nil =>
      simp only [joinSep]
      exact splitSep_of_sep_not_mem (hsep t (List.mem_cons_self t []))
    | cons t2 ts2 =>
      have h1 : sep ∉ t := hsep t (List.mem_cons_self t _)
      have h2 : ∀ u ∈ t2 :: ts2, sep ∉ u := fun u hu => hsep u (List.mem_cons_of_mem t hu)
      simp only [joinSep]
      rw [splitSep_append_sep h1, ih (by simp) h2]

theorem splitSep_cons_sep (s : Str) : splitSep (sep :: s) = [] :: splitSep s := by
  simp [splitSep]

theorem tokenize_cons_sep (s : Str) : tokenize (sep :: s) = .ok (splitSep s) := by
  simp [tokenize, splitSep_cons_sep]

theorem tokenize_abs {ts : List Str} (hne : ts ≠ []) (hsep : ∀ t ∈ ts, sep ∉ t) :
    tokenize (sep :: joinSep ts) = .ok ts := by
  rw [tokenize_cons_sep, splitSep_joinSep hne hsep]

theorem tokenize_sep_free {s : Str} {T : List Str} (h : tokenize s = .ok T) :
    ∀ t ∈ T, sep ∉ t := by
  unfold tokenize at h
  split at h
  · cases h
  · simp only [Except.ok.injEq] at h
    subst h
    intro t ht
    split at ht
    · exact sep_not_mem_of_mem_splitSep (List.mem_of_mem_tail ht)
    · exact sep_not_mem_of_mem_splitSep ht

theorem parse_eq_of_tokenize {s : Str} {g : Grammar} {T : List Str}
    (h : tokenize s = .ok T) :
    parse s g = (walk g T).map fun fs => ⟨g, fs⟩ := by
  simp [parse, h]

/-! ## Lemmas about the lockstep walk -/

theorem walk_ok_length {g : Grammar} {T : List Str} {fs : List (Str × Str)}
    (h : walk g T = .ok fs) : T.length = g.length := by
  induction g generalizing T fs with
  | nil =>
    cases T with
    | nil => rfl
    | cons t ts => simp [walk] at h
  | cons seg gs ih =>
    cases T with
    | nil => simp [walk] at h
    | cons t ts =>
      cases seg with
      | literal text =>
        simp only [walk] at h
        split at h
        · simpa using ih h
        · cases h
      | value label =>
        simp only [walk] at h
        split at h
        · cases h
        · cases hw : walk gs ts with
          | error e => rw [hw] at h; cases h
          | ok fs' => simpa using ih hw

theorem walk_ok_get_literal {g : Grammar} {T : List Str} {fs : List (Str × Str)}
    {i : Nat} {text : Str} (h : walk g T = .ok fs)
    (hi : g[i]? = some (Segment.literal text)) : T[i]? = some text := by
  induction g generalizing T fs i with
  | nil => simp at hi
  | cons seg gs ih =>
    cases T with
    | nil => simp [walk] at h
    | cons t ts =>
      cases i with
      | zero =>
        simp only [List.getElem?_cons_zero, Option.some.injEq] at hi
        subst hi
        simp only [walk] at h
        split at h
        · rename_i heq
          simp [heq]
        · cases h
      | succ i' =>
        simp only [List.getElem?_cons_succ] at hi ⊢
        cases seg with
        | literal text0 =>
          simp only [walk] at h
          split at h
          · exact ih h hi
          · cases h
        | value label =>
          simp only [walk] at h
          split at h
          · cases h
          · cases hw : walk gs ts with
            | error e => rw [hw] at h; cases h
            | ok fs' => exact ih hw hi

theorem walk_ok_value_ne_nil {g : Grammar} {T : List Str} {fs : List (Str × Str)}
    {i : Nat} {l t : Str} (h : walk g T = .ok fs)
    (hi : g[i]? = some (Segment.value l)) (htok : T[i]? = some t) : t ≠ [] := by
  induction g generalizing T fs i with
  | nil => simp at hi
  | cons seg gs ih =>
    cases T with
    | nil => simp [walk] at h
    | cons t0 ts =>
      cases i with
      | zero =>
        simp only [List.getElem?_cons_zero, Option.some.injEq] at hi htok
        subst hi
        subst htok
        simp only [walk] at h
        split at h
        · cases h
        · rename_i hne
          exact hne
      | succ i' =>
        simp only [List.getElem?_cons_succ] at hi htok
        cases seg with
        | literal text0 =>
          simp only [walk] at h
          split at h
          · exact ih h hi htok
          · cases h
        | value label =>
          simp only [walk] at h
          split at h
          · cases h
          · cases hw : walk gs ts with
            | error e => rw [hw] at h; cases h
            | ok fs' => exact ih hw hi htok

theorem walk_tokensOf {g : Grammar} {f : Str → Str}
    (hval : ∀ l, Segment.value l ∈ g → f l ≠ []) :
    walk g (tokensOf g f) = .ok (fieldsOf g f) := by
  induction g with
  | nil => rfl
  | cons seg gs ih =>
    have ih' := ih (fun l hl => hval l (List.mem_cons_of_mem _ hl))
    cases seg with
    | literal text =>
      simp only [tokensOf, List.map_cons, walk, if_pos rfl, fieldsOf,
        List.filterMap_cons]
      exact ih'
    | value label =>
      simp only [tokensOf, List.map_cons, walk, fieldsOf, List.filterMap_cons]
      rw [if_neg (hval label (List.mem_cons_self _ _))]
      simp only [tokensOf, fieldsOf] at ih'
      rw [ih']
      rfl

theorem lookupField_fieldsOf {g : Grammar} {f : Str → Str} {l : Str}
    (h : Segment.value l ∈ g) : lookupField l (fieldsOf g f) = some (f l) := by
  induction g with
  | nil => cases h
  | cons seg gs ih =>
    cases seg with
    | literal text =>
      have hmem : Segment.value l ∈ gs := by
        rcases List.mem_cons.mp h with h' | h'
        · cases h'
        · exact h'
      simpa [fieldsOf, List.filterMap_cons] using ih hmem
    | value label =>
      by_cases hl : label = l
      · subst hl
        simp [fieldsOf, List.filterMap_cons, lookupField]
      · have hmem : Segment.value l ∈ gs := by
          rcases List.mem_cons.mp h with h' | h'
          · cases h'; exact absurd rfl hl
          · exact h'
        simpa [fieldsOf, List.filterMap_cons, lookupField, hl] using ih hmem

theorem emitTokens_eq_tokensOf {g : Grammar} {fs : List (Str × Str)} {f : Str → Str}
    (h : ∀ l, Segment.value l ∈ g → lookupField l fs = some (f l)) :
    emitTokens g fs = tokensOf g f := by
  induction g with
  | nil => rfl
  | cons seg gs ih =>
    have ih' := ih (fun l hl => h l (List.mem_cons_of_mem _ hl))
    cases seg with
    | literal text => simp [emitTokens, tokensOf, List.map_cons] at ih' ⊢; exact ih'
    | value label =>
      simp only [emitTokens, tokensOf, List.map_cons] at ih' ⊢
      rw [h label (List.mem_cons_self _ _)]
      simp [ih']

theorem sep_not_mem_tokensOf {g : Grammar} {f : Str → Str}
    (hlit : ∀ text, Segment.literal text ∈ g → sep ∉ text)
    (hval : ∀ l, Segment.value l ∈ g → sep ∉ f l) :
    ∀ t ∈ tokensOf g f, sep ∉ t := by
  intro t ht
  simp only [tokensOf, List.mem_map] at ht
  obtain ⟨seg, hseg, hemit⟩ := ht
  cases seg with
  | literal text => exact hemit ▸ hlit text hseg
  | value label => exact hemit ▸ hval label hseg

theorem mem_literalTexts {g : Grammar} {text : Str} :
    text ∈ literalTexts g ↔ Segment.literal text ∈ g := by
  simp only [literalTexts, List.mem_filterMap]
  constructor
  · rintro ⟨seg, hseg, hmatch⟩
    cases seg with
    | literal t => simp at hmatch; subst hmatch; exact hseg
    | value l => simp at hmatch
  · intro h
    exact ⟨Segment.literal text, h, rfl⟩

theorem mem_valueLabels {g : Grammar} {l : Str} :
    l ∈ valueLabels g ↔ Segment.value l ∈ g := by
  simp only [valueLabels, List.mem_filterMap]
  constructor
  · rintro ⟨seg, hseg, hmatch⟩
    cases seg with
    | literal t => simp at hmatch
    | value l' => simp at hmatch; subst hmatch; exact hseg
  · intro h
    exact ⟨Segment.value l, h, rfl⟩

/-- C1 (amended to require separator-free values): for every non-empty
grammar whose literal keywords are separator-free and every assignment of
non-empty, separator-free values to the grammar's value labels, parsing the
formatted constructed identifier with the same grammar returns exactly the
constructed identifier, and in particular the original field map. -/
theorem parse_format_construct_roundTrip (g : Grammar) (f : Str → Str)
    (hg : g ≠ [])
    (hlit : ∀ text ∈ literalTexts g, sep ∉ text)
    (hval : ∀ l ∈ valueLabels g, f l ≠ [] ∧ sep ∉ f l) :
    parse (format (construct g f)) g = .ok (construct g f) := by
  have hlit' : ∀ text, Segment.literal text ∈ g → sep ∉ text :=
    fun text ht => hlit text (mem_literalTexts.mpr ht)
  have hval' : ∀ l, Segment.value l ∈ g → f l ≠ [] ∧ sep ∉ f l :=
    fun l hl => hval l (mem_valueLabels.mpr hl)
  have hemit : emitTokens g (fieldsOf g f) = tokensOf g f :=
    emitTokens_eq_tokensOf (fun l hl => lookupField_fieldsOf hl)
  have hfmt : format (construct g f) = sep :: joinSep (tokensOf g f) := by
    simp [format, construct, hemit]
  have hne : tokensOf g f ≠ [] := by
    cases g with
    | nil => exact absurd rfl hg
    | cons seg gs => simp [tokensOf]
  have hfree := sep_not_mem_tokensOf hlit' (fun l hl => (hval' l hl).2)
  rw [hfmt, parse_eq_of_tokenize (tokenize_abs hne hfree),
    walk_tokensOf (fun l hl => (hval' l hl).1)]
  rfl

/-- C1 witness: the round-trip theorem applied to the recoverable-database
grammar with the concrete values of §8 scenario 1. -/
theorem parse_format_construct_roundTrip_witness :
    parse (format (construct mssqlRecoverableDBGrammar recovAssign))
        mssqlRecoverableDBGrammar
      = .ok (construct mssqlRecoverableDBGrammar recovAssign) :=
  parse_format_construct_roundTrip mssqlRecoverableDBGrammar recovAssign
    (by decide) (by decide) (by decide)

/-- C1 counterexample: with a non-empty Name value that contains the path
separator (`sql/DB1`), formatting the constructed identifier and parsing it
back does not reproduce the identifier — the parse fails with an unexpected
trailing segment — so the round-trip claim is false for assignments that are
merely non-empty. -/
theorem roundTrip_sep_in_value_cex :
    (∀ l ∈ valueLabels mssqlRecoverableDBGrammar, slashNameAssign l ≠ []) ∧
    parse (format (construct mssqlRecoverableDBGrammar slashNameAssign))
        mssqlRecoverableDBGrammar
      = .error (.unexpectedTrailingSegment "DB1".data) ∧
    parse (format (construct mssqlRecoverableDBGrammar slashNameAssign))
        mssqlRecoverableDBGrammar
      ≠ .ok (construct mssqlRecoverableDBGrammar slashNameAssign) := by
  refine ⟨by decide, by decide, by decide⟩

theorem valueLabels_cons_literal (text : Str) (gs : Grammar) :
    valueLabels (Segment.literal text :: gs) = valueLabels gs := by
  simp [valueLabels, List.filterMap_cons]

theorem valueLabels_cons_value (label : Str) (gs : Grammar) :
    valueLabels (Segment.value label :: gs) = label :: valueLabels gs := by
  simp [valueLabels, List.filterMap_cons]

theorem emitTokens_cons_literal (text : Str) (gs : Grammar)
    (fs : List (Str × Str)) :
    emitTokens (Segment.literal text :: gs) fs = text :: emitTokens gs fs := rfl

theorem emitTokens_cons_value (label : Str) (gs : Grammar)
    (fs : List (Str × Str)) :
    emitTokens (Segment.value label :: gs) fs
      = (lookupField label fs).getD [] :: emitTokens gs fs := rfl

theorem emitTokens_congr {g : Grammar} {fs1 fs2 : List (Str × Str)}
    (h : ∀ l ∈ valueLabels g, lookupField l fs1 = lookupField l fs2) :
    emitTokens g fs1 = emitTokens g fs2 := by
  induction g with
  | nil => rfl
  | cons seg gs ih =>
    cases seg with
    | literal text =>
      rw [valueLabels_cons_literal] at h
      rw [emitTokens_cons_literal, emitTokens_cons_literal, ih h]
    | value label =>
      rw [valueLabels_cons_value] at h
      have hhead := h label (List.mem_cons_self _ _)
      have ih' := ih (fun l hl => h l (List.mem_cons_of_mem _ hl))
      rw [emitTokens_cons_value, emitTokens_cons_value, hhead, ih']

theorem walk_ok_emitTokens {g : Grammar} {T : List Str} {fs : List (Str × Str)}
    (h : walk g T = .ok fs) (hnd : (valueLabels g).Nodup) :
    emitTokens g fs = T := by
  induction g generalizing T fs with
  | nil =>
    cases T with
    | nil => rfl
    | cons t ts => simp [walk] at h
  | cons seg gs ih =>
    cases T with
    | nil => simp [walk] at h
    | cons t ts =>
      cases seg with
      | literal text =>
        simp only [walk] at h
        split at h
        · rename_i heq
          rw [valueLabels_cons_literal] at hnd
          rw [emitTokens_cons_literal, ih h hnd, heq]
        · cases h
      | value label =>
        simp only [walk] at h
        split at h
        · cases h
        · cases hw : walk gs ts with
          | error e => rw [hw] at h; cases h
          | ok fs' =>
            rw [hw] at h
            simp only [Except.map, Except.ok.injEq] at h
            subst h
            rw [valueLabels_cons_value] at hnd
            have hnd0 : label ∉ valueLabels gs ∧ (valueLabels gs).Nodup := by
              simpa using hnd
            have hcongr : emitTokens gs ((label, t) :: fs') = emitTokens gs fs' :=
              emitTokens_congr (fun l hl => by
                have hne : ¬ label = l := fun e => hnd0.1 (by rw [e]; exact hl)
                simp [lookupField, hne])
            have hlk : lookupField label ((label, t) :: fs') = some t := by
              simp [lookupField]
            rw [emitTokens_cons_value, hlk, Option.getD_some, hcongr, ih hw hnd0.2]

/-- C2 (amended to require pairwise distinct value labels): for every
well-formed canonical string (absolute form) that the parser accepts under a
grammar whose value-segment labels are pairwise distinct, formatting the
resulting identifier reproduces the input string exactly. -/
theorem format_parse_roundTrip (g : Grammar) (s : Str) (id : Identifier)
    (hnd : (valueLabels g).Nodup) (hs : s.head? = some sep)
    (hp : parse s g = .ok id) : format id = s := by
  cases s with
  | nil => simp at hs
  | cons c s' =>
    simp only [List.head?_cons, Option.some.injEq] at hs
    subst hs
    rw [parse_eq_of_tokenize (tokenize_cons_sep s')] at hp
    cases hw : walk g (splitSep s') with
    | error e => rw [hw] at hp; cases hp
    | ok fs =>
      rw [hw] at hp
      simp only [Except.map, Except.ok.injEq] at hp
      subst hp
      simp only [format]
      rw [walk_ok_emitTokens hw hnd, joinSep_splitSep]

/-- C2 witness: the format-after-parse theorem applied to the concrete
recoverable-database canonical string of §8 scenario 1. -/
theorem format_parse_roundTrip_witness :
    format ⟨mssqlRecoverableDBGrammar,
      [("SubscriptionId".data, "00000000-0000-0000-0000-000000000000".data),
       ("ResourceGroup".data, "resGroup1".data),
       ("MsSqlServer".data, "sqlServer1".data),
       ("Name".data, "sqlDB1".data)]⟩
      = "/subscriptions/00000000-0000-0000-0000-000000000000/resourceGroups/resGroup1/providers/Microsoft.Sql/servers/sqlServer1/recoverabledatabases/sqlDB1".data :=
  format_parse_roundTrip mssqlRecoverableDBGrammar _ _
    (by decide) (by decide) (by decide)

/-- C2 counterexample: under a grammar with a duplicated value label, the
parser accepts the well-formed canonical string `/subscriptions/v/x/w` (no
redundant separators), but formatting the resulting identifier yields
`/subscriptions/v/x/v`, not the original string — so the claim as stated,
quantified over every grammar, is false. -/
theorem format_parse_dup_label_cex :
    parse "/subscriptions/v/x/w".data dupLabelGrammar
      = .ok ⟨dupLabelGrammar, [("a".data, "v".data), ("a".data, "w".data)]⟩ ∧
    format ⟨dupLabelGrammar, [("a".data, "v".data), ("a".data, "w".data)]⟩
      = "/subscriptions/v/x/v".data ∧
    format ⟨dupLabelGrammar, [("a".data, "v".data), ("a".data, "w".data)]⟩
      ≠ "/subscriptions/v/x/w".data := by
  refine ⟨by decide, by decide, by decide⟩

/-! ## Case sensitivity of literal segments -/

theorem toNat_ofNat_lt {n : Nat} (h : n < 55296) : (Char.ofNat n).toNat = n := by
  rw [Char.ofNat, dif_pos (Or.inl h)]
  simp [Char.ofNatAux, Char.toNat, UInt32.toNat]

theorem toUpper_toNat {c : Char} (h : 97 ≤ c.toNat ∧ c.toNat ≤ 122) :
    (Char.toUpper c).toNat = c.toNat - 32 := by
  rw [Char.toUpper, if_pos ⟨h.1, h.2⟩]
  exact toNat_ofNat_lt (by omega)

theorem toLower_toNat {c : Char} (h : 65 ≤ c.toNat ∧ c.toNat ≤ 90) :
    (Char.toLower c).toNat = c.toNat + 32 := by
  rw [Char.toLower, if_pos ⟨h.1, h.2⟩]
  exact toNat_ofNat_lt (by omega)

/-- A character whose case toggling actually changes it (a cased letter)
never toggles into the path separator. -/
theorem toggleCase_ne_sep {c : Char} (h : toggleCase c ≠ c) :
    toggleCase c ≠ sep := by
  intro hc
  unfold toggleCase at h hc
  by_cases h1 : 97 ≤ c.toNat ∧ c.toNat ≤ 122
  · rw [if_pos h1] at hc
    have h2 := toUpper_toNat h1
    rw [hc] at h2
    have h3 : sep.toNat = 47 := rfl
    omega
  · rw [if_neg h1] at hc h
    by_cases h2 : 65 ≤ c.toNat ∧ c.toNat ≤ 90
    · rw [if_pos h2] at hc
      have h3 := toLower_toNat h2
      rw [hc] at h3
      have h4 : sep.toNat = 47 := rfl
      omega
    · rw [if_neg h2] at h
      exact h rfl

theorem walk_set_literal {g : Grammar} {T : List Str} {fs : List (Str × Str)}
    {i : Nat} {text t' : Str}
    (h : walk g T = .ok fs) (hi : g[i]? = some (Segment.literal text))
    (hne : t' ≠ text) :
    walk g (T.set i t') = .error (.literalMismatch text t') := by
  induction g generalizing T fs i with
  | nil => simp at hi
  | cons seg gs ih =>
    cases T with
    | nil => simp [walk] at h
    | cons t ts =>
      cases i with
      | zero =>
        simp only [List.getElem?_cons_zero, Option.some.injEq] at hi
        subst hi
        rw [List.set_cons_zero]
        simp [walk, hne]
      | succ i' =>
        simp only [List.getElem?_cons_succ] at hi
        cases seg with
        | literal text0 =>
          simp only [walk] at h
          split at h
          · rename_i heq
            rw [List.set_cons_succ]
            simp only [walk]
            rw [if_pos heq]
            exact ih h hi
          · cases h
        | value label =>
          simp only [walk] at h
          split at h
          · cases h
          · rename_i hnil
            cases hw : walk gs ts with
            | error e => rw [hw] at h; cases h
            | ok fs' =>
              rw [List.set_cons_succ]
              simp only [walk]
              rw [if_neg hnil, ih hw hi]
              rfl

/-- C3: case sensitivity of literal segments: for every canonical string
that parses successfully, toggling the case of any (cased) character of any
literal segment's token produces an input that fails to parse with a
literal-mismatch error naming that literal. -/
theorem parse_literal_case_alteration_fails (g : Grammar) (s : Str)
    (id : Identifier) (T : List Str) (i j : Nat) (text : Str)
    (hp : parse s g = .ok id) (ht : tokenize s = .ok T)
    (hi : g[i]? = some (Segment.literal text)) (hj : j < text.length)
    (hc : toggleCase (text.getD j sep) ≠ text.getD j sep) :
    parse (sep :: joinSep (T.set i (alterCaseAt text j))) g
      = .error (.literalMismatch text (alterCaseAt text j)) := by
  rw [parse_eq_of_tokenize ht] at hp
  cases hw : walk g T with
  | error e => rw [hw] at hp; cases hp
  | ok fs =>
    have htok : T[i]? = some text := walk_ok_get_literal hw hi
    have hsfree := tokenize_sep_free ht
    have htext_free : sep ∉ text := hsfree text (List.getElem?_mem htok)
    have hgetd : text[j]? = some (text.getD j sep) := by
      rw [List.getD_eq_getElem?_getD, List.getElem?_eq_getElem hj]
      rfl
    have hne : alterCaseAt text j ≠ text := by
      intro he
      have h1 : (text.set j (toggleCase (text.getD j sep)))[j]?
          = some (toggleCase (text.getD j sep)) :=
        List.getElem?_set_self hj
      rw [alterCaseAt] at he
      rw [he, hgetd, Option.some.injEq] at h1
      exact hc h1.symm
    have hsep_t' : sep ∉ alterCaseAt text j := by
      intro hm
      rcases List.mem_or_eq_of_mem_set hm with hmem | heq
      · exact htext_free hmem
      · exact toggleCase_ne_sep hc heq.symm
    have hTfree : ∀ u ∈ T.set i (alterCaseAt text j), sep ∉ u := by
      intro u hu
      rcases List.mem_or_eq_of_mem_set hu with hmem | heq
      · exact hsfree u hmem
      · rw [heq]
        exact hsep_t'
    have hTne : T.set i (alterCaseAt text j) ≠ [] := by
      cases T with
      | nil => simp at htok
      | cons t ts =>
        cases i with
        | zero => simp
        | succ i' => simp
    rw [parse_eq_of_tokenize (tokenize_abs hTne hTfree),
      walk_set_literal hw hi hne]
    rfl

/-- C3 witness: toggling the case of the `r` of `recoverabledatabases` in
the valid canonical string of §8 scenario 1 yields the `Recoverabledatabases`
input of the unit test, and it fails with a literal mismatch. -/
theorem parse_literal_case_alteration_fails_witness :
    parse "/subscriptions/00000000-0000-0000-0000-000000000000/resourceGroups/resGroup1/providers/Microsoft.Sql/servers/sqlServer1/Recoverabledatabases/sqlDB1".data
        mssqlRecoverableDBGrammar
      = .error (.literalMismatch "recoverabledatabases".data
          "Recoverabledatabases".data) := by
  have h := parse_literal_case_alteration_fails mssqlRecoverableDBGrammar
    "/subscriptions/00000000-0000-0000-0000-000000000000/resourceGroups/resGroup1/providers/Microsoft.Sql/servers/sqlServer1/recoverabledatabases/sqlDB1".data
    ⟨mssqlRecoverableDBGrammar,
      [("SubscriptionId".data, "00000000-0000-0000-0000-000000000000".data),
       ("ResourceGroup".data, "resGroup1".data),
       ("MsSqlServer".data, "sqlServer1".data),
       ("Name".data, "sqlDB1".data)]⟩
    ["subscriptions".data, "00000000-0000-0000-0000-000000000000".data,
     "resourceGroups".data, "resGroup1".data, "providers".data,
     "Microsoft.Sql".data, "servers".data, "sqlServer1".data,
     "recoverabledatabases".data, "sqlDB1".data]
    8 0 "recoverabledatabases".data
    (by decide) (by decide) (by decide) (by decide) (by decide)
  have heq : sep :: joinSep
      ((["subscriptions".data, "00000000-0000-0000-0000-000000000000".data,
        "resourceGroups".data, "resGroup1".data, "providers".data,
        "Microsoft.Sql".data, "servers".data, "sqlServer1".data,
        "recoverabledatabases".data, "sqlDB1".data].set 8
          (alterCaseAt "recoverabledatabases".data 0)))
      = "/subscriptions/00000000-0000-0000-0000-000000000000/resourceGroups/resGroup1/providers/Microsoft.Sql/servers/sqlServer1/Recoverabledatabases/sqlDB1".data := by
    decide
  have herr : alterCaseAt "recoverabledatabases".data 0
      = "Recoverabledatabases".data := by decide
  rw [heq, herr] at h
  exact h

/-- C4: §8 scenario 1 / the "Sql Database ID" test case: the concrete
canonical string parses against the recoverable-database grammar and yields
exactly the fields Name = sqlDB1, MsSqlServer = sqlServer1,
ResourceGroup = resGroup1. -/
theorem mssqlRecoverableDBID_ok :
    MssqlRecoverableDBID "/subscriptions/00000000-0000-0000-0000-000000000000/resourceGroups/resGroup1/providers/Microsoft.Sql/servers/sqlServer1/recoverabledatabases/sqlDB1".data
      = .ok ⟨"sqlDB1".data, "sqlServer1".data, "resGroup1".data⟩ := by decide

/-! ## Segment-count exactness -/

theorem walk_append_extra {g : Grammar} {T : List Str} {fs : List (Str × Str)}
    (h : walk g T = .ok fs) (t' : Str) :
    walk g (T ++ [t']) = .error (.unexpectedTrailingSegment t') := by
  induction g generalizing T fs with
  | nil =>
    cases T with
    | nil => rfl
    | cons t ts => simp [walk] at h
  | cons seg gs ih =>
    cases T with
    | nil => simp [walk] at h
    | cons t ts =>
      cases seg with
      | literal text =>
        simp only [walk] at h
        split at h
        · rename_i heq
          simp only [List.cons_append, walk]
          rw [if_pos heq]
          exact ih h
        · cases h
      | value label =>
        simp only [walk] at h
        split at h
        · cases h
        · rename_i hnil
          cases hw : walk gs ts with
          | error e => rw [hw] at h; cases h
          | ok fs' =>
            simp only [List.cons_append, walk, List.append_eq]
            rw [if_neg hnil, ih hw]
            rfl

theorem walk_dropLast_missing {g : Grammar} {T : List Str}
    {fs : List (Str × Str)} {seg : Segment}
    (h : walk g T = .ok fs) (hlast : g.getLast? = some seg) :
    walk g T.dropLast = .error (.missingSegment (segLabel seg)) := by
  induction g generalizing T fs with
  | nil => simp at hlast
  | cons seg0 gs ih =>
    cases T with
    | nil => simp [walk] at h
    | cons t ts =>
      cases gs with
      | nil =>
        have hts : ts = [] := by
          cases seg0 with
          | literal text =>
            simp only [walk] at h
            split at h
            · cases ts with
              | nil => rfl
              | cons a as => simp [walk] at h
            · cases h
          | value label =>
            simp only [walk] at h
            split at h
            · cases h
            · cases ts with
              | nil => rfl
              | cons a as => simp [walk, Except.map] at h
        subst hts
        simp only [List.getLast?_singleton, Option.some.injEq] at hlast
        subst hlast
        simp [List.dropLast_single, walk]
      | cons g2 gs' =>
        have hlast' : (g2 :: gs').getLast? = some seg := by
          rw [List.getLast?_cons_cons] at hlast
          exact hlast
        cases seg0 with
        | literal text =>
          simp only [walk] at h
          split at h
          · rename_i heq
            cases ts with
            | nil => simp [walk] at h
            | cons t2 ts' =>
              rw [List.dropLast_cons₂]
              simp only [walk]
              rw [if_pos heq]
              exact ih h hlast'
          · cases h
        | value label =>
          simp only [walk] at h
          split at h
          · cases h
          · rename_i hnil
            cases hw : walk (g2 :: gs') ts with
            | error e => rw [hw] at h; cases h
            | ok fs' =>
              cases ts with
              | nil => simp [walk] at hw
              | cons t2 ts' =>
                rw [List.dropLast_cons₂]
                simp only [walk]
                rw [if_neg hnil, ih hw hlast']
                rfl

/-- C5 (amended to grammars of at least two segments): for every valid
canonical string, removing the last segment fails with a missing-segment
reason naming the grammar's last segment, appending an extra separator-free
segment fails with an unexpected-trailing-segment reason, and a successful
parse forces the token count to equal the grammar length exactly. -/
theorem parse_segment_count_exactness (g : Grammar) (s : Str) (id : Identifier)
    (T : List Str) (t' : Str) (seg : Segment)
    (hp : parse s g = .ok id) (ht : tokenize s = .ok T)
    (hlast : g.getLast? = some seg) (hlen : 2 ≤ g.length) (hsep : sep ∉ t') :
    parse (sep :: joinSep T.dropLast) g
        = .error (.missingSegment (segLabel seg)) ∧
    parse (sep :: joinSep (T ++ [t'])) g
        = .error (.unexpectedTrailingSegment t') ∧
    T.length = g.length := by
  rw [parse_eq_of_tokenize ht] at hp
  cases hw : walk g T with
  | error e => rw [hw] at hp; cases hp
  | ok fs =>
    have hlenT : T.length = g.length := walk_ok_length hw
    have hfree := tokenize_sep_free ht
    refine ⟨?_, ?_, hlenT⟩
    · have hdne : T.dropLast ≠ [] := by
        have hld := List.length_dropLast T
        intro he
        rw [he] at hld
        simp at hld
        omega
      have hdfree : ∀ u ∈ T.dropLast, sep ∉ u :=
        fun u hu => hfree u (List.dropLast_subset T hu)
      rw [parse_eq_of_tokenize (tokenize_abs hdne hdfree),
        walk_dropLast_missing hw hlast]
      rfl
    · have hane : T ++ [t'] ≠ [] := by simp
      have hafree : ∀ u ∈ T ++ [t'], sep ∉ u := by
        intro u hu
        rcases List.mem_append.mp hu with hm | hm
        · exact hfree u hm
        · simp only [List.mem_singleton] at hm
          rw [hm]
          exact hsep
      rw [parse_eq_of_tokenize (tokenize_abs hane hafree),
        walk_append_extra hw]
      rfl

/-- C5 witness: segment-count exactness applied to the concrete
recoverable-database canonical string: truncating `sqlDB1` yields a
missing-segment error naming `Name` (the test's "Missing Sql Recoverable
Database Value" case), appending `extra` yields an
unexpected-trailing-segment error, and the token count equals the grammar
length. -/
theorem parse_segment_count_exactness_witness :
    parse "/subscriptions/00000000-0000-0000-0000-000000000000/resourceGroups/resGroup1/providers/Microsoft.Sql/servers/sqlServer1/recoverabledatabases".data
        mssqlRecoverableDBGrammar = .error (.missingSegment "Name".data) ∧
    parse "/subscriptions/00000000-0000-0000-0000-000000000000/resourceGroups/resGroup1/providers/Microsoft.Sql/servers/sqlServer1/recoverabledatabases/sqlDB1/extra".data
        mssqlRecoverableDBGrammar
      = .error (.unexpectedTrailingSegment "extra".data) ∧
    (["subscriptions".data, "00000000-0000-0000-0000-000000000000".data,
      "resourceGroups".data, "resGroup1".data, "providers".data,
      "Microsoft.Sql".data, "servers".data, "sqlServer1".data,
      "recoverabledatabases".data, "sqlDB1".data] : List Str).length
      = mssqlRecoverableDBGrammar.length := by
  have h := parse_segment_count_exactness mssqlRecoverableDBGrammar
    "/subscriptions/00000000-0000-0000-0000-000000000000/resourceGroups/resGroup1/providers/Microsoft.Sql/servers/sqlServer1/recoverabledatabases/sqlDB1".data
    ⟨mssqlRecoverableDBGrammar,
      [("SubscriptionId".data, "00000000-0000-0000-0000-000000000000".data),
       ("ResourceGroup".data, "resGroup1".data),
       ("MsSqlServer".data, "sqlServer1".data),
       ("Name".data, "sqlDB1".data)]⟩
    ["subscriptions".data, "00000000-0000-0000-0000-000000000000".data,
     "resourceGroups".data, "resGroup1".data, "providers".data,
     "Microsoft.Sql".data, "servers".data, "sqlServer1".data,
     "recoverabledatabases".data, "sqlDB1".data]
    "extra".data (Segment.value "Name".data)
    (by decide) (by decide) (by decide) (by decide) (by decide)
  obtain ⟨h1, h2, h3⟩ := h
  have heq1 : sep :: joinSep
      ((["subscriptions".data, "00000000-0000-0000-0000-000000000000".data,
        "resourceGroups".data, "resGroup1".data, "providers".data,
        "Microsoft.Sql".data, "servers".data, "sqlServer1".data,
        "recoverabledatabases".data, "sqlDB1".data] : List Str).dropLast)
      = "/subscriptions/00000000-0000-0000-0000-000000000000/resourceGroups/resGroup1/providers/Microsoft.Sql/servers/sqlServer1/recoverabledatabases".data := by
    decide
  have heq2 : sep :: joinSep
      ((["subscriptions".data, "00000000-0000-0000-0000-000000000000".data,
        "resourceGroups".data, "resGroup1".data, "providers".data,
        "Microsoft.Sql".data, "servers".data, "sqlServer1".data,
        "recoverabledatabases".data, "sqlDB1".data] : List Str) ++ ["extra".data])
      = "/subscriptions/00000000-0000-0000-0000-000000000000/resourceGroups/resGroup1/providers/Microsoft.Sql/servers/sqlServer1/recoverabledatabases/sqlDB1/extra".data := by
    decide
  rw [heq1] at h1
  rw [heq2] at h2
  exact ⟨h1, h2, h3⟩

/-- C5 counterexample: under a one-segment grammar the claim as stated
fails: `/subscriptions` is a valid canonical string, but its truncation `/`
(or the empty string, under the other reading of removing the only segment)
fails with a literal-mismatch (resp. empty-input) reason, not with the
claimed missing-segment reason naming the unmatched segment. -/
theorem truncation_single_segment_cex :
    parse "/subscriptions".data singleSegGrammar
      = .ok ⟨singleSegGrammar, []⟩ ∧
    parse "/".data singleSegGrammar
      = .error (.literalMismatch "subscriptions".data []) ∧
    parse "/".data singleSegGrammar
      ≠ .error (.missingSegment "subscriptions".data) ∧
    parse "".data singleSegGrammar = .error .emptyInput ∧
    parse "".data singleSegGrammar
      ≠ .error (.missingSegment "subscriptions".data) := by
  refine ⟨by decide, by decide, by decide, by decide, by decide⟩

/-- C6: empty-value rejection: a canonical string whose token at some value
segment's position is empty never parses successfully; in particular the
`/subscriptions/.../resourceGroups/` input of §8 scenario 3 fails with an
empty-value-segment reason for the resource group name. -/
theorem parse_empty_value_rejection :
    (∀ (s : Str) (g : Grammar) (T : List Str) (i : Nat) (l : Str)
        (id : Identifier),
      tokenize s = .ok T → g[i]? = some (Segment.value l) →
      T[i]? = some [] → parse s g ≠ .ok id) ∧
    MssqlRecoverableDBID
        "/subscriptions/00000000-0000-0000-0000-000000000000/resourceGroups/".data
      = .error (.emptyValueSegment "ResourceGroup".data) := by
  constructor
  · intro s g T i l id ht hi htok hp
    rw [parse_eq_of_tokenize ht] at hp
    cases hw : walk g T with
    | error e => rw [hw] at hp; cases hp
    | ok fs => exact walk_ok_value_ne_nil hw hi htok rfl
  · decide

/-- C6 witness: the rejection theorem applied to the concrete scenario-3
input, whose fourth token (the resource group name) is empty. -/
theorem parse_empty_value_rejection_witness :
    parse "/subscriptions/00000000-0000-0000-0000-000000000000/resourceGroups/".data
        mssqlRecoverableDBGrammar
      ≠ .ok ⟨mssqlRecoverableDBGrammar, []⟩ :=
  parse_empty_value_rejection.1
    "/subscriptions/00000000-0000-0000-0000-000000000000/resourceGroups/".data
    mssqlRecoverableDBGrammar
    ["subscriptions".data, "00000000-0000-0000-0000-000000000000".data,
     "resourceGroups".data, []]
    3 "ResourceGroup".data ⟨mssqlRecoverableDBGrammar, []⟩
    (by decide) (by decide) (by decide)

/-- C7: §8 scenario 4: the empty input string fails immediately against any
non-empty grammar, with the empty-input reason; no identifier is returned. -/
theorem parse_empty_input_fails (g : Grammar) (_hg : g ≠ []) :
    parse [] g = .error .emptyInput := rfl

/-- C7 witness: the empty input against the (non-empty) recoverable-database
grammar. -/
theorem parse_empty_input_fails_witness :
    parse [] mssqlRecoverableDBGrammar = .error .emptyInput :=
  parse_empty_input_fails mssqlRecoverableDBGrammar (by decide)

/-- C8: in each embedded Read/Update/Delete operation of the two resources
in the source tree, a failing parse of the state-stored identifier makes the
operation return exactly that parse error, with zero remote API calls issued
(no retry, no default identifier, remote and state untouched). -/
theorem crud_parse_error_short_circuit (stateId : Str) (e e' : ParseError)
    (h1 : ParseConsumergroupID stateId = .error e)
    (h2 : EndpointID stateId = .error e') :
    (∀ get, consumerGroupRead stateId get = (.parseFailed e, 0)) ∧
    (∀ dOk cu, consumerGroupUpdate stateId dOk cu = (.parseFailed e, 0)) ∧
    (∀ del, consumerGroupDelete stateId del = (.parseFailed e, 0)) ∧
    (∀ get, cdnEndpointRead stateId get = (.parseFailed e', 0)) ∧
    (∀ tOnly tCh gE aU get,
      cdnEndpointUpdate stateId tOnly tCh gE aU get = (.parseFailed e', 0)) ∧
    (∀ del, cdnEndpointDelete stateId del = (.parseFailed e', 0)) := by
  refine ⟨?_, ?_, ?_, ?_, ?_, ?_⟩ <;> intros <;>
    simp [consumerGroupRead, consumerGroupUpdate, consumerGroupDelete,
      cdnEndpointRead, cdnEndpointUpdate, cdnEndpointDelete, h1, h2]

/-- C8 witness: the short-circuit theorem applied to the malformed (empty)
state identifier, with constant remote oracles. -/
theorem crud_parse_error_short_circuit_witness :
    consumerGroupRead [] (fun _ => .ok)
      = (.parseFailed .emptyInput, 0) ∧
    consumerGroupUpdate [] true (fun _ => .ok)
      = (.parseFailed .emptyInput, 0) ∧
    consumerGroupDelete [] (fun _ => .ok)
      = (.parseFailed .emptyInput, 0) ∧
    cdnEndpointRead [] (fun _ => .ok)
      = (.parseFailed .emptyInput, 0) ∧
    cdnEndpointUpdate [] true true (fun _ => .ok) (fun _ => .ok) (fun _ => .ok)
      = (.parseFailed .emptyInput, 0) ∧
    cdnEndpointDelete [] (fun _ => .ok)
      = (.parseFailed .emptyInput, 0) := by
  have h := crud_parse_error_short_circuit [] .emptyInput .emptyInput rfl rfl
  exact ⟨h.1 _, h.2.1 _ _, h.2.2.1 _, h.2.2.2.1 _, h.2.2.2.2.1 _ _ _ _ _,
    h.2.2.2.2.2 _⟩

/-- C9: `sortedKeysFromSlice` returns the input map's keys as strings,
sorted ascending: the output is sorted, it is a permutation of the keys, and
it does not depend on the map's iteration order (any permutation of the key
enumeration yields the same output). -/
theorem sortedKeysFromSlice_sorted_perm (input : List Kind) :
    (sortedKeysFromSlice input).Sorted (· ≤ ·) ∧
    (sortedKeysFromSlice input).Perm (input.map Kind.str) ∧
    ∀ input2 : List Kind, input.Perm input2 →
      sortedKeysFromSlice input = sortedKeysFromSlice input2 := by
  refine ⟨List.sorted_insertionSort _ _, List.perm_insertionSort _ _, ?_⟩
  intro input2 hp
  refine List.eq_of_perm_of_sorted ?_ (List.sorted_insertionSort _ _)
    (List.sorted_insertionSort _ _)
  have h1 : (sortedKeysFromSlice input).Perm (input.map Kind.str) :=
    List.perm_insertionSort _ _
  have h2 : (input.map Kind.str).Perm (input2.map Kind.str) := hp.map _
  have h3 : (sortedKeysFromSlice input2).Perm (input2.map Kind.str) :=
    List.perm_insertionSort _ _
  exact (h1.trans h2).trans h3.symm

/-- C9 witness: two enumeration orders of the same two-element key set give
the same sorted output. -/
theorem sortedKeysFromSlice_sorted_perm_witness :
    sortedKeysFromSlice [⟨"StorageV2"⟩, ⟨"BlobStorage"⟩]
      = sortedKeysFromSlice [⟨"BlobStorage"⟩, ⟨"StorageV2"⟩] :=
  (sortedKeysFromSlice_sorted_perm [⟨"StorageV2"⟩, ⟨"BlobStorage"⟩]).2.2
    [⟨"BlobStorage"⟩, ⟨"StorageV2"⟩] (by decide)

/-- C10: `NextPageLink` returns the currently stored link and leaves the
pager holding nil, so the first call surrenders the stored link and every
subsequent call (until the field is reassigned) returns nil. -/
theorem nextPageLink_surrender_once (p : ListByInstanceCustomPager) :
    (NextPageLink p).1 = p.NextLink ∧
    (NextPageLink p).2.NextLink = none ∧
    ∀ n : Nat, 1 ≤ n → nthCallResult p n = none := by
  refine ⟨rfl, rfl, ?_⟩
  have key : ∀ (m : Nat) (q : ListByInstanceCustomPager),
      nthCallResult q (m + 1) = none := by
    intro m
    induction m with
    | zero => intro q; rfl
    | succ k ih => intro q; exact ih (NextPageLink q).2
  intro n hn
  cases n with
  | zero => omega
  | succ m => exact key m p

/-- C10 witness: a pager holding a link surrenders it on the first call and
returns nil on the second. -/
theorem nextPageLink_surrender_once_witness :
    (NextPageLink ⟨some "next"⟩).1 = some "next" ∧
    (NextPageLink ⟨some "next"⟩).2.NextLink = none ∧
    nthCallResult ⟨some "next"⟩ 1 = none := by
  have h := nextPageLink_surrender_once ⟨some "next"⟩
  exact ⟨h.1, h.2.1, h.2.2 1 (by decide)⟩
